import Mathlib

/-!
Verification of the acervo-ts concurrency toolkit against its specification.

The development shallowly embeds the repository's data structures and
operations as executable Lean definitions and proves the specified
properties about them.

Modelling conventions, shared by all sections:
* TypeScript arrays used as FIFO queues become Lean lists (shift = head,
  push = append at the tail).
* Pending continuations (waiting receivers, blocked senders) are
  represented by numeric task identifiers; delivering a value to a
  continuation is recorded as an explicit (id, value) event.
* Cooperative async execution is modelled as a transition system: every
  await point of the source is a step boundary, and a run is a fold of a
  schedule (a list of step choices) over the state.  Invariant claims are
  proved for every schedule; liveness claims exhibit an explicit schedule.
-/

/-! ## Channel (src/channels/channel.ts)

State: two arrays, queued senders and waiting receivers.  Each queued
send in the source also carries a fresh Signal that receive fulfills when
it pops the entry; nothing in the repository ever awaits that signal
(the bounded wrapper keeps its own signal list), so the popped signal has
no observable effect and the queue is modelled as the list of values. -/

structure Channel (T : Type) where
  senders : List T
  receivers : List Nat
deriving Repr, DecidableEq

def Channel.empty {T : Type} : Channel T := ⟨[], []⟩

/-- The length getter: the count of queued-but-unconsumed sends. -/
def Channel.length {T : Type} (ch : Channel T) : Nat :=
  ch.senders.length

/-- Channel.send: if a receiver is waiting, shift the oldest one and hand it
the value directly (the delivery is returned as an (id, value) event);
otherwise push the value onto the sender queue. -/
def Channel.send {T : Type} (ch : Channel T) (v : T) :
    Channel T × Option (Nat × T) :=
  match ch.receivers with
  | r :: rest => (⟨ch.senders, rest⟩, some (r, v))
  | [] => (⟨ch.senders ++ [v], ch.receivers⟩, none)

/-- Channel.receive: if a send is queued, shift the oldest one and return its
value (some v); otherwise append the receiver id to the waiting queue and
suspend (none). -/
def Channel.receive {T : Type} (ch : Channel T) (rid : Nat) :
    Channel T × Option T :=
  match ch.senders with
  | v :: rest => (⟨rest, ch.receivers⟩, some v)
  | [] => (⟨ch.senders, ch.receivers ++ [rid]⟩, none)

/-- Perform a list of sends in order, collecting the direct-delivery events. -/
def Channel.sendAll {T : Type} (ch : Channel T) (vs : List T) :
    Channel T × List (Nat × T) :=
  match vs with
  | [] => (ch, [])
  | v :: rest =>
    match ch.send v with
    | (ch1, d) =>
      match ch1.sendAll rest with
      | (ch2, ds) => (ch2, d.toList ++ ds)

/-- Perform a list of receives in order, collecting each outcome
(some value, or none when the receiver had to suspend). -/
def Channel.receiveAll {T : Type} (ch : Channel T) (rids : List Nat) :
    Channel T × List (Option T) :=
  match rids with
  | [] => (ch, [])
  | r :: rest =>
    match ch.receive r with
    | (ch1, o) =>
      match ch1.receiveAll rest with
      | (ch2, os) => (ch2, o :: os)

theorem Channel.sendAll_no_receivers {T : Type} (vs : List T) (q : List T) :
    Channel.sendAll ⟨q, []⟩ vs = (⟨q ++ vs, []⟩, []) := by
  induction vs generalizing q with
  | nil => simp [Channel.sendAll]
  | cons v rest ih =>
    simp [Channel.sendAll, Channel.send, ih (q ++ [v])]

theorem Channel.receiveAll_from_queue {T : Type} (rids : List Nat)
    (q : List T) (h : rids.length ≤ q.length) :
    Channel.receiveAll ⟨q, []⟩ rids =
      (⟨q.drop rids.length, []⟩, (q.take rids.length).map some) := by
  induction rids generalizing q with
  | nil => simp [Channel.receiveAll]
  | cons r rest ih =>
    match q with
    | [] => simp at h
    | v :: q' =>
      have h' : rest.length ≤ q'.length := by
        simpa [Nat.succ_le_succ_iff] using h
      simp [Channel.receiveAll, Channel.receive, ih q' h']

theorem Channel.sendAll_to_receivers {T : Type} (vs : List T) (rs : List Nat)
    (h : vs.length ≤ rs.length) :
    Channel.sendAll ⟨[], rs⟩ vs = (⟨[], rs.drop vs.length⟩, rs.zip vs) := by
  induction vs generalizing rs with
  | nil => simp [Channel.sendAll]
  | cons v rest ih =>
    match rs with
    | [] => simp at h
    | r :: rs' =>
      have h' : rest.length ≤ rs'.length := by
        simpa [Nat.succ_le_succ_iff] using h
      simp [Channel.sendAll, Channel.send, ih rs' h', List.zip]

/-- C1: on a channel starting empty, n sends followed by n receives return
exactly the sent values in order (FIFO); and when receivers are queued
first, each send hands its value to the waiting receivers in their arrival
order (ties among ready receivers broken by arrival order). -/
theorem channel_fifo {T : Type} (vs : List T) (rids : List Nat) (rs : List Nat)
    (hlen : rids.length = vs.length) (hrs : vs.length ≤ rs.length) :
    ((Channel.empty.sendAll vs).1.receiveAll rids).2 = vs.map some ∧
    (Channel.sendAll ⟨[], rs⟩ vs).2 = rs.zip vs := by
  constructor
  · have h1 : Channel.empty.sendAll vs = (⟨vs, []⟩, ([] : List (Nat × T))) := by
      simpa using Channel.sendAll_no_receivers vs []
    rw [h1]
    have h2 := Channel.receiveAll_from_queue rids vs (le_of_eq hlen)
    rw [h2, hlen]
    simp
  · exact congrArg Prod.snd (Channel.sendAll_to_receivers vs rs hrs)

theorem channel_fifo_witness :
    ((Channel.empty.sendAll [10, 20, 30]).1.receiveAll [0, 1, 2]).2 =
      [some 10, some 20, some 30] ∧
    (Channel.sendAll ⟨[], [5, 6, 7]⟩ [10, 20, 30]).2 = [(5, 10), (6, 20), (7, 30)] :=
  channel_fifo [10, 20, 30] [0, 1, 2] [5, 6, 7] (by decide) (by decide)

/-! ## C9: the two internal collections are never simultaneously non-empty -/

inductive ChanOp (T : Type) where
  | send (v : T)
  | recv (rid : Nat)
deriving Repr, DecidableEq

def Channel.applyOp {T : Type} (ch : Channel T) : ChanOp T → Channel T
  | .send v => (ch.send v).1
  | .recv rid => (ch.receive rid).1

def Channel.applyOps {T : Type} (ch : Channel T) (ops : List (ChanOp T)) :
    Channel T :=
  ops.foldl Channel.applyOp ch

theorem Channel.applyOp_inv {T : Type} (ch : Channel T)
    (h : ch.senders = [] ∨ ch.receivers = []) (op : ChanOp T) :
    (ch.applyOp op).senders = [] ∨ (ch.applyOp op).receivers = [] := by
  cases op with
  | send v =>
    match hr : ch.receivers with
    | r :: rest =>
      have hs : ch.senders = [] := by
        rcases h with h | h
        · exact h
        · rw [h] at hr; exact absurd hr (by simp)
      simp [Channel.applyOp, Channel.send, hr, hs]
    | [] => simp [Channel.applyOp, Channel.send, hr]
  | recv rid =>
    match hs : ch.senders with
    | v :: rest =>
      have hr : ch.receivers = [] := by
        rcases h with h | h
        · rw [h] at hs; exact absurd hs (by simp)
        · exact h
      simp [Channel.applyOp, Channel.receive, hs, hr]
    | [] => simp [Channel.applyOp, Channel.receive, hs]

/-- C9: for every sequence of send and receive calls starting from the empty
channel, at most one of the two internal collections (queued senders,
waiting receivers) is non-empty; length always equals the number of
queued-but-unconsumed sends, hence length is 0 whenever a receiver waits. -/
theorem channel_collections_invariant {T : Type} (ops : List (ChanOp T)) :
    ((Channel.empty.applyOps ops).senders = [] ∨
      (Channel.empty.applyOps ops).receivers = []) ∧
    (Channel.empty.applyOps ops).length =
      (Channel.empty.applyOps ops).senders.length ∧
    ((Channel.empty.applyOps ops).receivers ≠ [] →
      (Channel.empty.applyOps ops).length = 0) := by
  have main : ∀ (ch : Channel T), (ch.senders = [] ∨ ch.receivers = []) →
      (ch.applyOps ops).senders = [] ∨ (ch.applyOps ops).receivers = [] := by
    induction ops with
    | nil => intro ch h; exact h
    | cons op rest ih =>
      intro ch h
      exact ih (ch.applyOp op) (Channel.applyOp_inv ch h op)
  have hinv := main Channel.empty (Or.inl rfl)
  refine ⟨hinv, rfl, ?_⟩
  intro hne
  rcases hinv with h | h
  · simp [Channel.length, h]
  · exact absurd h hne

theorem channel_collections_invariant_witness :
    (Channel.empty.applyOps [ChanOp.recv 0, ChanOp.recv 1] : Channel Nat).receivers ≠ [] ∧
    (Channel.empty.applyOps [ChanOp.recv 0, ChanOp.recv 1] : Channel Nat).length = 0 :=
  ⟨by decide,
    (channel_collections_invariant [ChanOp.recv 0, ChanOp.recv 1]).2.2 (by decide)⟩

/-! ## FiniteChannel (src/channels/consumer.ts)

The wrapper owns an inner Channel of (null | value) payloads and a closed
flag.  The null sentinel is modelled as Option.none; a value payload as
Option.some. -/

inductive FcError where
  | channelClosed
deriving Repr, DecidableEq

structure FiniteChannel (T : Type) where
  innerChannel : Channel (Option T)
  isClosed : Bool
deriving Repr, DecidableEq

def FiniteChannel.empty {T : Type} : FiniteChannel T := ⟨Channel.empty, false⟩

/-- The length getter delegates to the inner channel. -/
def FiniteChannel.length {T : Type} (fc : FiniteChannel T) : Nat :=
  fc.innerChannel.length

/-- FiniteChannel.send: throws FiniteChannelClosedError when closed,
otherwise wraps the value and delegates to the inner channel's send. -/
def FiniteChannel.send {T : Type} (fc : FiniteChannel T) (v : T) :
    Except FcError (FiniteChannel T × Option (Nat × Option T)) :=
  if fc.isClosed then .error .channelClosed
  else
    match fc.innerChannel.send (some v) with
    | (ch, d) => .ok (⟨ch, fc.isClosed⟩, d)

/-- Outcome of one receive call on a FiniteChannel: a value, the closed
error (the unwrapped result was the sentinel), or a suspension (the inner
receive queued the caller as a waiting receiver). -/
inductive RecvOutcome (T : Type) where
  | value (v : T)
  | closed
  | blocked
deriving Repr, DecidableEq

/-- FiniteChannel.receive: delegates to the inner channel's receive and
throws FiniteChannelClosedError when the result is the null sentinel. -/
def FiniteChannel.receive {T : Type} (fc : FiniteChannel T) (rid : Nat) :
    FiniteChannel T × RecvOutcome T :=
  match fc.innerChannel.receive rid with
  | (ch, some none) => (⟨ch, fc.isClosed⟩, .closed)
  | (ch, some (some v)) => (⟨ch, fc.isClosed⟩, .value v)
  | (ch, none) => (⟨ch, fc.isClosed⟩, .blocked)

/-- FiniteChannel.close: idempotent; only the first call flips the flag and
sends the null sentinel into the inner channel. -/
def FiniteChannel.close {T : Type} (fc : FiniteChannel T) :
    FiniteChannel T × Option (Nat × Option T) :=
  if fc.isClosed then (fc, none)
  else
    match fc.innerChannel.send none with
    | (ch, d) => (⟨ch, true⟩, d)

/-- Call close n times in a row, dropping delivery events. -/
def FiniteChannel.closeTimes {T : Type} (fc : FiniteChannel T) :
    Nat → FiniteChannel T
  | 0 => fc
  | n + 1 => (fc.close).1.closeTimes n

/-- Send a list of values in order, failing on the first closed error and
dropping delivery events. -/
def FiniteChannel.sendAll {T : Type} (fc : FiniteChannel T) (vs : List T) :
    Except FcError (FiniteChannel T) :=
  match vs with
  | [] => .ok fc
  | v :: rest =>
    match fc.send v with
    | .error e => .error e
    | .ok (fc1, _) => fc1.sendAll rest

/-- The loop body of FiniteChannel.iter, run with fuel: repeatedly receive;
a value is yielded, the sentinel breaks the loop cleanly (true), and a
suspension with no sender ever arriving leaves the loop incomplete
(false). -/
def FiniteChannel.iterDrainAux {T : Type} :
    Nat → FiniteChannel T → List T → List T × Bool
  | 0, _, acc => (acc, false)
  | fuel + 1, fc, acc =>
    match fc.receive 0 with
    | (_, .closed) => (acc, true)
    | (fc', .value v) => FiniteChannel.iterDrainAux fuel fc' (acc ++ [v])
    | (_, .blocked) => (acc, false)

/-- Drain the channel the way iter does; the Bool reports whether the loop
terminated by observing the sentinel. -/
def FiniteChannel.iterDrain {T : Type} (fc : FiniteChannel T) :
    List T × Bool :=
  FiniteChannel.iterDrainAux (fc.length + 1) fc []

theorem FiniteChannel.sendAll_from_empty {T : Type} (vs : List T) (q : List T) :
    FiniteChannel.sendAll ⟨⟨q.map some, []⟩, false⟩ vs =
      .ok ⟨⟨(q ++ vs).map some, []⟩, false⟩ := by
  induction vs generalizing q with
  | nil => simp [FiniteChannel.sendAll]
  | cons v rest ih =>
    have := ih (q ++ [v])
    simp [FiniteChannel.sendAll, FiniteChannel.send, Channel.send] at this ⊢
    simpa using this

theorem FiniteChannel.close_of_closed {T : Type} (fc : FiniteChannel T)
    (h : fc.isClosed = true) : fc.close = (fc, none) := by
  simp [FiniteChannel.close, h]

theorem FiniteChannel.closeTimes_of_closed {T : Type} (fc : FiniteChannel T)
    (h : fc.isClosed = true) (n : Nat) : fc.closeTimes n = fc := by
  induction n with
  | zero => rfl
  | succ n ih => simp [FiniteChannel.closeTimes, FiniteChannel.close_of_closed fc h, ih]

theorem FiniteChannel.iterDrainAux_spec {T : Type} (vs : List T) (acc : List T)
    (fuel : Nat) (hfuel : vs.length + 1 ≤ fuel) (c : Bool) :
    FiniteChannel.iterDrainAux fuel ⟨⟨vs.map some ++ [none], []⟩, c⟩ acc =
      (acc ++ vs, true) := by
  induction vs generalizing acc fuel with
  | nil =>
    match fuel with
    | 0 => simp at hfuel
    | f + 1 => simp [FiniteChannel.iterDrainAux, FiniteChannel.receive, Channel.receive]
  | cons v rest ih =>
    match fuel with
    | 0 => simp at hfuel
    | f + 1 =>
      have hf : rest.length + 1 ≤ f := by
        simpa [Nat.succ_le_succ_iff] using hfuel
      simp [FiniteChannel.iterDrainAux, FiniteChannel.receive, Channel.receive,
        ih (acc ++ [v]) f hf]

/-- C4: starting from an empty FiniteChannel, after sending values vs and
then calling close any positive number of times: the channel is closed and
every subsequent send fails with the ChannelClosed error; the inner queue
holds exactly the sent values followed by exactly one end sentinel no
matter how many times close was called (idempotence); and iter terminates
cleanly exactly after yielding every value sent before close. -/
theorem finite_channel_close_contract {T : Type} (vs : List T) (w : T) (n : Nat)
    (hn : 1 ≤ n) :
    (FiniteChannel.sendAll FiniteChannel.empty vs) =
      .ok ⟨⟨vs.map some, []⟩, false⟩ ∧
    ((⟨⟨vs.map some, []⟩, false⟩ : FiniteChannel T).closeTimes n =
      ⟨⟨vs.map some ++ [none], []⟩, true⟩) ∧
    ((⟨⟨vs.map some ++ [none], []⟩, true⟩ : FiniteChannel T).send w =
      .error .channelClosed) ∧
    ((⟨⟨vs.map some ++ [none], []⟩, true⟩ : FiniteChannel T).iterDrain =
      (vs, true)) := by
  refine ⟨by simpa using FiniteChannel.sendAll_from_empty vs [], ?_, ?_, ?_⟩
  · match n, hn with
    | n + 1, _ =>
      have hstep : (⟨⟨vs.map some, []⟩, false⟩ : FiniteChannel T).close =
          (⟨⟨vs.map some ++ [none], []⟩, true⟩, none) := by
        simp [FiniteChannel.close, Channel.send]
      simp only [FiniteChannel.closeTimes, hstep]
      exact FiniteChannel.closeTimes_of_closed _ rfl n
  · simp [FiniteChannel.send]
  · exact FiniteChannel.iterDrainAux_spec vs [] _
      (by simp [FiniteChannel.length, Channel.length]) true

theorem finite_channel_close_contract_witness :
    (FiniteChannel.sendAll FiniteChannel.empty [1, 2]) =
      .ok ⟨⟨[some 1, some 2], []⟩, false⟩ ∧
    ((⟨⟨[some 1, some 2], []⟩, false⟩ : FiniteChannel Nat).closeTimes 3 =
      ⟨⟨[some 1, some 2, none], []⟩, true⟩) ∧
    ((⟨⟨[some 1, some 2, none], []⟩, true⟩ : FiniteChannel Nat).send 7 =
      .error .channelClosed) ∧
    ((⟨⟨[some 1, some 2, none], []⟩, true⟩ : FiniteChannel Nat).iterDrain =
      ([1, 2], true)) := by
  have h := finite_channel_close_contract [1, 2] 7 3 (by decide)
  simpa using h

/-- C5 (code_bug evidence): the sentinel is an ordinary queued value of the
inner channel.  After close, the first receive consumes it and reports
closure, but a second receive finds the inner channel empty and suspends
as a waiting receiver instead of reporting closure. -/
theorem finite_channel_receive_after_sentinel_blocks :
    ((FiniteChannel.empty.close.1 : FiniteChannel Nat).receive 0).2 =
      RecvOutcome.closed ∧
    (((FiniteChannel.empty.close.1 : FiniteChannel Nat).receive 0).1.receive 1).2 =
      RecvOutcome.blocked ∧
    (((FiniteChannel.empty.close.1 : FiniteChannel Nat).receive 0).1.receive
      1).1.innerChannel.receivers = [1] := by
  decide

/-- C10: on a FiniteChannel that is not closed and has no waiting receivers,
close injects the sentinel into the inner queue, so the public length
getter grows from q to q + 1 even though the sentinel is not a user value. -/
theorem finite_channel_close_increments_length {T : Type} (fc : FiniteChannel T)
    (hrecv : fc.innerChannel.receivers = []) (hclosed : fc.isClosed = false) :
    (fc.close.1).length = fc.length + 1 := by
  simp [FiniteChannel.close, hclosed, Channel.send, hrecv,
    FiniteChannel.length, Channel.length]

theorem finite_channel_close_increments_length_witness :
    ((⟨⟨[some 1, some 2], []⟩, false⟩ : FiniteChannel Nat).close.1).length = 3 :=
  finite_channel_close_increments_length ⟨⟨[some 1, some 2], []⟩, false⟩ rfl rfl

/-! ## BoundedChannel (the decoree wrapper, src/unnamed/part_003)

The wrapper owns a decorated channel, a capacity, and a FIFO list of
signals, one per blocked sender.  A blocked sender suspends on its
signal; receive fulfills the oldest signal and then delegates.  The
fulfilled-but-not-yet-resumed senders are scheduler state and are kept in
a second FIFO list; a resume step performs the blocked sender's deferred
inner send, which the source issues without rechecking capacity.

blockedLog and releasedLog record, in order, the ids of senders that ever
blocked and the ids whose signal was fulfilled, to state the FIFO-release
property. -/

structure BoundedState (T : Type) where
  decoree : Channel T
  signals : List (Nat × T)
  woken : List (Nat × T)
  blockedLog : List Nat
  releasedLog : List Nat
deriving Repr, DecidableEq

def BoundedState.start {T : Type} : BoundedState T :=
  ⟨Channel.empty, [], [], [], []⟩

inductive BoundedOp (T : Type) where
  | send (sid : Nat) (v : T)
  | recv (rid : Nat)
  | resume
deriving Repr, DecidableEq

/-- One step of the BoundedChannel transition system.

send: if the decoree length has reached capacity, push a fresh signal and
suspend (the value is held by the suspended sender); otherwise perform the
inner send at once.

recv: fulfill (shift) the oldest blocked sender's signal, then delegate to
the inner receive.

resume: the oldest fulfilled sender wakes and performs its inner send
without rechecking capacity (as the source does after its await). -/
def BoundedChannel.stepOp {T : Type} (capacity : Nat) (s : BoundedState T) :
    BoundedOp T → BoundedState T
  | .send sid v =>
    if capacity ≤ s.decoree.length then
      { s with signals := s.signals ++ [(sid, v)],
               blockedLog := s.blockedLog ++ [sid] }
    else
      { s with decoree := (s.decoree.send v).1 }
  | .recv rid =>
    match s.signals with
    | b :: rest =>
      { s with signals := rest, woken := s.woken ++ [b],
               releasedLog := s.releasedLog ++ [b.1],
               decoree := (s.decoree.receive rid).1 }
    | [] => { s with decoree := (s.decoree.receive rid).1 }
  | .resume =>
    match s.woken with
    | b :: rest =>
      { s with woken := rest, decoree := (s.decoree.send b.2).1 }
    | [] => s

def BoundedChannel.runOps {T : Type} (capacity : Nat)
    (ops : List (BoundedOp T)) : BoundedState T :=
  ops.foldl (BoundedChannel.stepOp capacity) BoundedState.start

/-- C3 counterexample: with capacity 1, a fresh sender can pass the
capacity check between a receive that fulfills a blocked sender and that
sender's resumption; the resumed sender then sends without rechecking, so
two items are queued at once and the claimed bound of C = 1 is violated. -/
theorem bounded_capacity_counterexample :
    ¬ ((BoundedChannel.runOps 1
        [BoundedOp.send 1 10, BoundedOp.send 2 20, BoundedOp.recv 7,
         BoundedOp.send 3 30, BoundedOp.resume]).decoree.length ≤ 1) ∧
    (BoundedChannel.runOps 1
        [BoundedOp.send 1 10, BoundedOp.send 2 20, BoundedOp.recv 7,
         BoundedOp.send 3 30, BoundedOp.resume]).decoree.length = 2 := by
  decide


theorem Channel.length_send {T : Type} (ch : Channel T) (v : T) :
    ((ch.send v).1).length ≤ ch.length + 1 := by
  match hr : ch.receivers with
  | r :: rest => simp [Channel.send, hr, Channel.length]
  | [] => simp [Channel.send, hr, Channel.length]

theorem Channel.length_receive {T : Type} (ch : Channel T) (rid : Nat) :
    ((ch.receive rid).1).length ≤ ch.length := by
  match hs : ch.senders with
  | v :: rest => simp [Channel.receive, hs, Channel.length]
  | [] => simp [Channel.receive, hs, Channel.length]

theorem Channel.length_receive_lt {T : Type} (ch : Channel T) (rid : Nat)
    (capacity : Nat) (hcap : 0 < capacity) (h : ch.length ≤ capacity) :
    ((ch.receive rid).1).length < capacity := by
  match hs : ch.senders with
  | v :: rest =>
    have : ch.length = rest.length + 1 := by simp [Channel.length, hs]
    simp only [Channel.receive, hs, Channel.length]
    omega
  | [] => simpa [Channel.receive, hs, Channel.length] using hcap

/-- The bookkeeping invariant tying the logs together: the ids fulfilled so
far, followed by the ids still blocked, are exactly the ids that ever
blocked, in order.  Hence signals are fulfilled in FIFO blocking order. -/
def BoundedState.logInv {T : Type} (s : BoundedState T) : Prop :=
  s.releasedLog ++ s.signals.map Prod.fst = s.blockedLog

theorem BoundedChannel.stepOp_logInv {T : Type} (capacity : Nat)
    (s : BoundedState T) (h : BoundedState.logInv s) (op : BoundedOp T) :
    BoundedState.logInv (BoundedChannel.stepOp capacity s op) := by
  cases op with
  | send sid v =>
    by_cases hc : capacity ≤ s.decoree.length
    · simp only [BoundedState.logInv] at h ⊢
      simp [BoundedChannel.stepOp, hc, h.symm]
    · simpa [BoundedChannel.stepOp, hc] using h
  | recv rid =>
    match hsig : s.signals with
    | b :: rest =>
      simp only [BoundedState.logInv] at h ⊢
      rw [hsig] at h
      simpa [BoundedChannel.stepOp, hsig] using h
    | [] =>
      simp only [BoundedState.logInv] at h ⊢
      simpa [BoundedChannel.stepOp, hsig] using h
  | resume =>
    simp only [BoundedState.logInv] at h ⊢
    match hw : s.woken with
    | b :: rest => simpa [BoundedChannel.stepOp, hw] using h
    | [] => simpa [BoundedChannel.stepOp, hw] using h

/-- Apply the resume step n times. -/
def BoundedChannel.resumeN {T : Type} (capacity : Nat) :
    Nat → BoundedState T → BoundedState T
  | 0, s => s
  | n + 1, s => BoundedChannel.resumeN capacity n
      (BoundedChannel.stepOp capacity s .resume)

/-- Let every fulfilled-but-not-yet-resumed sender run to completion.  The
cooperative scheduler produces exactly this order when the channel calls
are awaited: a fulfilled sender's continuation is enqueued before the call
that fulfilled it returns, so it runs before the next call begins. -/
def BoundedChannel.flushWoken {T : Type} (capacity : Nat)
    (s : BoundedState T) : BoundedState T :=
  BoundedChannel.resumeN capacity s.woken.length s

/-- Run a sequence of calls with prioritized resumption: before each call,
all pending fulfilled senders resume. -/
def BoundedChannel.runPrio {T : Type} (capacity : Nat)
    (ops : List (BoundedOp T)) : BoundedState T :=
  ops.foldl
    (fun s op =>
      BoundedChannel.stepOp capacity (BoundedChannel.flushWoken capacity s) op)
    BoundedState.start

/-- The capacity invariant that is inductive under prioritized resumption:
the queue never exceeds capacity, at most one fulfilled sender is ever
pending, and while one is pending a queue slot is free for it. -/
def BoundedState.prioInv {T : Type} (capacity : Nat)
    (s : BoundedState T) : Prop :=
  s.decoree.length ≤ capacity ∧ s.woken.length ≤ 1 ∧
  (s.woken ≠ [] → s.decoree.length < capacity)

theorem BoundedChannel.flushWoken_prioInv {T : Type} (capacity : Nat)
    (s : BoundedState T) (h : BoundedState.prioInv capacity s) :
    BoundedState.prioInv capacity (BoundedChannel.flushWoken capacity s) ∧
    (BoundedChannel.flushWoken capacity s).woken = [] := by
  obtain ⟨hlen, hw1, hfree⟩ := h
  match hw : s.woken with
  | [] =>
    refine ⟨⟨?_, ?_, ?_⟩, ?_⟩ <;>
      simp [BoundedChannel.flushWoken, hw, BoundedChannel.resumeN, hlen]
  | [b] =>
    have hstep : BoundedChannel.stepOp capacity s .resume =
        { s with woken := [], decoree := (s.decoree.send b.2).1 } := by
      simp [BoundedChannel.stepOp, hw]
    have hlt : s.decoree.length < capacity := hfree (by simp [hw])
    have hsend := Channel.length_send s.decoree b.2
    refine ⟨⟨?_, ?_, ?_⟩, ?_⟩ <;>
      simp [BoundedChannel.flushWoken, hw, BoundedChannel.resumeN, hstep] <;>
      omega
  | b :: b' :: rest => simp [hw] at hw1

theorem BoundedChannel.stepOp_prioInv {T : Type} (capacity : Nat)
    (hcap : 0 < capacity) (t : BoundedState T)
    (hlen : t.decoree.length ≤ capacity) (hw : t.woken = [])
    (op : BoundedOp T) :
    BoundedState.prioInv capacity (BoundedChannel.stepOp capacity t op) := by
  cases op with
  | send sid v =>
    by_cases hc : capacity ≤ t.decoree.length
    · exact ⟨by simpa [BoundedChannel.stepOp, hc] using hlen,
        by simp [BoundedChannel.stepOp, hc, hw],
        by simp [BoundedChannel.stepOp, hc, hw]⟩
    · have hsend := Channel.length_send t.decoree v
      exact ⟨by simp only [BoundedChannel.stepOp, if_neg hc]; omega,
        by simp [BoundedChannel.stepOp, hc, hw],
        by simp [BoundedChannel.stepOp, hc, hw]⟩
  | recv rid =>
    have hrecv := Channel.length_receive_lt t.decoree rid capacity hcap hlen
    match hsig : t.signals with
    | b :: rest =>
      exact ⟨le_of_lt (by simpa [BoundedChannel.stepOp, hsig] using hrecv),
        by simp [BoundedChannel.stepOp, hsig, hw],
        fun _ => by simpa [BoundedChannel.stepOp, hsig] using hrecv⟩
    | [] =>
      exact ⟨le_of_lt (by simpa [BoundedChannel.stepOp, hsig] using hrecv),
        by simp [BoundedChannel.stepOp, hsig, hw],
        by simp [BoundedChannel.stepOp, hsig, hw]⟩
  | resume =>
    exact ⟨by simpa [BoundedChannel.stepOp, hw] using hlen,
      by simp [BoundedChannel.stepOp, hw],
      by simp [BoundedChannel.stepOp, hw]⟩

theorem BoundedChannel.resumeN_logInv {T : Type} (capacity : Nat) (n : Nat)
    (s : BoundedState T) (h : BoundedState.logInv s) :
    BoundedState.logInv (BoundedChannel.resumeN capacity n s) := by
  induction n generalizing s with
  | zero => exact h
  | succ n ih =>
    exact ih _ (BoundedChannel.stepOp_logInv capacity s h .resume)

theorem BoundedChannel.runPrio_inv {T : Type} (capacity : Nat)
    (hcap : 0 < capacity) (ops : List (BoundedOp T)) :
    BoundedState.prioInv capacity (BoundedChannel.runPrio capacity ops) ∧
    BoundedState.logInv (BoundedChannel.runPrio capacity ops) := by
  have main : ∀ (s : BoundedState T),
      BoundedState.prioInv capacity s → BoundedState.logInv s →
      BoundedState.prioInv capacity
          (ops.foldl (fun s op => BoundedChannel.stepOp capacity
            (BoundedChannel.flushWoken capacity s) op) s) ∧
      BoundedState.logInv
          (ops.foldl (fun s op => BoundedChannel.stepOp capacity
            (BoundedChannel.flushWoken capacity s) op) s) := by
    induction ops with
    | nil => intro s h1 h2; exact ⟨h1, h2⟩
    | cons op rest ih =>
      intro s h1 h2
      obtain ⟨hflush, hwnil⟩ := BoundedChannel.flushWoken_prioInv capacity s h1
      have hlog : BoundedState.logInv
          (BoundedChannel.flushWoken capacity s) :=
        BoundedChannel.resumeN_logInv capacity _ s h2
      exact ih _ (BoundedChannel.stepOp_prioInv capacity hcap _ hflush.1 hwnil op)
        (BoundedChannel.stepOp_logInv capacity _ hlog op)
  exact main BoundedState.start
    ⟨by simp [BoundedState.start, Channel.length, Channel.empty],
      by simp [BoundedState.start], by simp [BoundedState.start]⟩
    rfl

/-- C3 amended: for a BoundedChannel with capacity C > 0, provided every
fulfilled blocked sender resumes and performs its deferred send before the
next send or receive call begins (the order the cooperative scheduler
produces when the calls are awaited), then for every sequence of calls
from the empty channel: the number of queued-but-unreceived items never
exceeds C at any observable point (also after flushing a pending
resumption); blocked senders are fulfilled in the FIFO order in which
they blocked; and each receive fulfills at most one blocked sender, the
oldest.  Without the proviso the bound fails, see
bounded_capacity_counterexample. -/
theorem bounded_channel_amended {T : Type} (capacity : Nat)
    (hcap : 0 < capacity) (ops : List (BoundedOp T)) :
    ((BoundedChannel.runPrio capacity ops).decoree.length ≤ capacity) ∧
    ((BoundedChannel.flushWoken capacity
        (BoundedChannel.runPrio capacity ops)).decoree.length ≤ capacity) ∧
    ((BoundedChannel.runPrio capacity ops).releasedLog ++
        (BoundedChannel.runPrio capacity ops).signals.map Prod.fst =
      (BoundedChannel.runPrio capacity ops).blockedLog) ∧
    (∀ (s : BoundedState T) (rid : Nat),
      (BoundedChannel.stepOp capacity s (.recv rid)).releasedLog =
        s.releasedLog ++ (s.signals.map Prod.fst).take 1) := by
  obtain ⟨hprio, hlog⟩ := BoundedChannel.runPrio_inv capacity hcap ops
  refine ⟨hprio.1, ?_, hlog, ?_⟩
  · exact (BoundedChannel.flushWoken_prioInv capacity _ hprio).1.1
  · intro s rid
    match hsig : s.signals with
    | b :: rest => simp [BoundedChannel.stepOp, hsig]
    | [] => simp [BoundedChannel.stepOp, hsig]

theorem bounded_channel_amended_witness :
    ((BoundedChannel.runPrio 1
        [BoundedOp.send 1 10, BoundedOp.send 2 20, BoundedOp.recv 7,
         BoundedOp.send 3 30]).decoree.length ≤ 1) ∧
    ((BoundedChannel.runPrio 1
        [BoundedOp.send 1 10, BoundedOp.send 2 20, BoundedOp.recv 7,
         BoundedOp.send 3 30]).releasedLog ++
        (BoundedChannel.runPrio 1
          [BoundedOp.send 1 10, BoundedOp.send 2 20, BoundedOp.recv 7,
           BoundedOp.send 3 30] : BoundedState Nat).signals.map Prod.fst =
      (BoundedChannel.runPrio 1
        [BoundedOp.send 1 10, BoundedOp.send 2 20, BoundedOp.recv 7,
         BoundedOp.send 3 30]).blockedLog) :=
  ⟨(bounded_channel_amended 1 (by decide)
      [BoundedOp.send 1 10, BoundedOp.send 2 20, BoundedOp.recv 7,
       BoundedOp.send 3 30]).1,
    (bounded_channel_amended 1 (by decide)
      [BoundedOp.send 1 10, BoundedOp.send 2 20, BoundedOp.recv 7,
       BoundedOp.send 3 30]).2.2.1⟩

/-! ## Streams.buffered (src/unnamed/part_005)

One worker task and one consumer loop communicate through two channels:
concessions (Bool tokens) and results (tagged data or the null end
marker).  Both channel ends live inside the one combinator invocation, so
the channels are modelled directly as their queues; a task that would
suspend on an empty queue simply has no enabled step.

Worker loop: receive a concession; a false token kills the worker;
otherwise pull the generator; on done push the null marker and stop, else
push the data.  Consumer loop: pop a result; on the null marker push one
false concession and stop; otherwise yield the value and push one true
concession. -/

structure BufState (T : Type) where
  inp : List T
  conc : List Bool
  res : List (Option T)
  out : List T
  wdone : Bool
  cdone : Bool
deriving Repr, DecidableEq

def Streams.bufferedStart {T : Type} (input : List T) (bufferSize : Nat) :
    BufState T :=
  ⟨input, List.replicate bufferSize true, [], [], false, false⟩

/-- One worker step, enabled when the worker is alive and a concession is
available. -/
def Streams.workerStep {T : Type} (s : BufState T) : BufState T :=
  if s.wdone then s else
  match s.conc with
  | [] => s
  | c :: rest =>
    if c = false then { s with conc := rest, wdone := true }
    else
      match s.inp with
      | [] => { s with conc := rest, res := s.res ++ [none], wdone := true }
      | v :: vs => { s with conc := rest, inp := vs, res := s.res ++ [some v] }

/-- One consumer step, enabled when the consumer is alive and a result is
available. -/
def Streams.consumerStep {T : Type} (s : BufState T) : BufState T :=
  if s.cdone then s else
  match s.res with
  | [] => s
  | none :: rest => { s with res := rest, conc := s.conc ++ [false], cdone := true }
  | some v :: rest =>
    { s with res := rest, out := s.out ++ [v], conc := s.conc ++ [true] }

/-- A schedule entry: true steps the worker, false steps the consumer.  A
task whose step is not enabled leaves the state unchanged. -/
def Streams.bufStep {T : Type} (s : BufState T) (choice : Bool) : BufState T :=
  if choice then Streams.workerStep s else Streams.consumerStep s

def Streams.bufRun {T : Type} (s : BufState T) (sched : List Bool) : BufState T :=
  sched.foldl Streams.bufStep s

/-- The schedule that alternates worker and consumer, one round per input
item plus one round for the end marker. -/
def Streams.bufSched (n : Nat) : List Bool :=
  (List.replicate (n + 1) [true, false]).flatten

/-- Modelled from the spec: the fully synchronous element-by-element drain
of the input sequence that buffered is claimed to be equivalent to. -/
def Streams.syncDrain {T : Type} : List T → List T
  | [] => []
  | v :: vs => v :: Streams.syncDrain vs

theorem Streams.syncDrain_eq {T : Type} (l : List T) :
    Streams.syncDrain l = l := by
  induction l with
  | nil => rfl
  | cons v vs ih => simp [Streams.syncDrain, ih]

/-- The inductive invariant of a buffered run: the yielded values, the
data sitting in the results queue and the unread input always recompose
the original input, and the run goes through three phases (both loops
alive, worker finished, both finished) with the concession tokens
accounting for the free buffer slots. -/
def Streams.bufInv {T : Type} (full : List T) (k : Nat) (s : BufState T) : Prop :=
  s.out ++ s.res.filterMap id ++ s.inp = full ∧
    ((s.wdone = false ∧ s.cdone = false ∧
        (∃ ds : List T, s.res = ds.map some) ∧
        s.conc = List.replicate (k - s.res.length) true ∧ s.res.length ≤ k) ∨
     (s.wdone = true ∧ s.cdone = false ∧ s.inp = [] ∧
        (∃ ds : List T, s.res = ds.map some ++ [none]) ∧
        s.conc = List.replicate (k - s.res.length) true ∧ s.res.length ≤ k) ∨
     (s.wdone = true ∧ s.cdone = true ∧ s.inp = [] ∧ s.res = [] ∧ s.out = full))

theorem Streams.workerStep_inv {T : Type} (full : List T) (k : Nat)
    (s : BufState T) (h : Streams.bufInv full k s) :
    Streams.bufInv full k (Streams.workerStep s) := by
  obtain ⟨hsum, hphase⟩ := h
  rcases hphase with ⟨hw, hc, ⟨ds, hres⟩, hconc, hlen⟩ |
    ⟨hw, hc, hinp, ⟨ds, hres⟩, hconc, hlen⟩ | ⟨hw, hc, hinp, hres, hout⟩
  · -- both loops alive: the worker may pull an item or push the end marker
    have hreslen : s.res.length = ds.length := by rw [hres]; simp
    match hk : k - s.res.length with
    | 0 =>
      have hstep : Streams.workerStep s = s := by
        simp [Streams.workerStep, hw, hconc, hk]
      rw [hstep]
      exact ⟨hsum, Or.inl ⟨hw, hc, ⟨ds, hres⟩, hconc, hlen⟩⟩
    | m + 1 =>
      have hconc' : s.conc = true :: List.replicate m true := by
        rw [hconc, hk, List.replicate_succ]
      match hinp : s.inp with
      | [] =>
        have hstep : Streams.workerStep s =
            { s with conc := List.replicate m true,
                     res := s.res ++ [none], wdone := true } := by
          simp [Streams.workerStep, hw, hconc', hinp]
        rw [hstep]
        refine ⟨?_, Or.inr (Or.inl ⟨rfl, hc, hinp, ⟨ds, by rw [hres]⟩, ?_, ?_⟩)⟩
        · rw [hinp] at hsum
          simpa [List.filterMap_append, hinp] using hsum
        · show List.replicate m true =
            List.replicate (k - (s.res ++ [none]).length) true
          have hm : m = k - (s.res ++ [none]).length := by
            simp only [List.length_append, List.length_cons, List.length_nil]
            omega
          rw [hm]
        · show (s.res ++ [none]).length ≤ k
          simp only [List.length_append, List.length_cons, List.length_nil]
          omega
      | v :: vs =>
        have hstep : Streams.workerStep s =
            { s with conc := List.replicate m true, inp := vs,
                     res := s.res ++ [some v] } := by
          simp [Streams.workerStep, hw, hconc', hinp]
        rw [hstep]
        refine ⟨?_, Or.inl ⟨hw, hc, ⟨ds ++ [v], by rw [hres]; simp⟩, ?_, ?_⟩⟩
        · rw [hinp] at hsum
          simpa [List.filterMap_append] using hsum
        · show List.replicate m true =
            List.replicate (k - (s.res ++ [some v]).length) true
          have hm : m = k - (s.res ++ [some v]).length := by
            simp only [List.length_append, List.length_cons, List.length_nil]
            omega
          rw [hm]
        · show (s.res ++ [some v]).length ≤ k
          simp only [List.length_append, List.length_cons, List.length_nil]
          omega
  · -- worker already finished: the step is disabled
    have hstep : Streams.workerStep s = s := by simp [Streams.workerStep, hw]
    rw [hstep]
    exact ⟨hsum, Or.inr (Or.inl ⟨hw, hc, hinp, ⟨ds, hres⟩, hconc, hlen⟩)⟩
  · have hstep : Streams.workerStep s = s := by simp [Streams.workerStep, hw]
    rw [hstep]
    exact ⟨hsum, Or.inr (Or.inr ⟨hw, hc, hinp, hres, hout⟩)⟩

theorem Streams.consumerStep_inv {T : Type} (full : List T) (k : Nat)
    (s : BufState T) (h : Streams.bufInv full k s) :
    Streams.bufInv full k (Streams.consumerStep s) := by
  obtain ⟨hsum, hphase⟩ := h
  rcases hphase with ⟨hw, hc, ⟨ds, hres⟩, hconc, hlen⟩ |
    ⟨hw, hc, hinp, ⟨ds, hres⟩, hconc, hlen⟩ | ⟨hw, hc, hinp, hres, hout⟩
  · -- both loops alive: the results queue holds only data
    match ds, hres with
    | [], hres =>
      have hstep : Streams.consumerStep s = s := by
        simp [Streams.consumerStep, hc, hres]
      rw [hstep]
      exact ⟨hsum, Or.inl ⟨hw, hc, ⟨[], hres⟩, hconc, hlen⟩⟩
    | d :: ds', hres =>
      have hreslen : s.res.length = ds'.length + 1 := by rw [hres]; simp
      have hstep : Streams.consumerStep s =
          { s with res := ds'.map some, out := s.out ++ [d],
                   conc := s.conc ++ [true] } := by
        simp [Streams.consumerStep, hc, hres]
      rw [hstep]
      refine ⟨?_, Or.inl ⟨hw, hc, ⟨ds', rfl⟩, ?_, ?_⟩⟩
      · rw [hres] at hsum
        simpa using hsum
      · show s.conc ++ [true] =
          List.replicate (k - (ds'.map some).length) true
        rw [hconc, ← List.replicate_succ']
        have hm : k - s.res.length + 1 = k - (ds'.map some).length := by
          simp only [List.length_map]
          omega
        rw [hm]
      · show (ds'.map some).length ≤ k
        simp only [List.length_map]
        omega
  · -- worker finished: the queue is data followed by the end marker
    match ds, hres with
    | [], hres =>
      have hstep : Streams.consumerStep s =
          { s with res := [], conc := s.conc ++ [false], cdone := true } := by
        simp [Streams.consumerStep, hc, hres]
      rw [hstep]
      refine ⟨?_, Or.inr (Or.inr ⟨hw, rfl, hinp, rfl, ?_⟩)⟩
      · rw [hres, hinp] at hsum
        simpa [hinp] using hsum
      · rw [hres, hinp] at hsum
        simpa using hsum
    | d :: ds', hres =>
      have hreslen : s.res.length = ds'.length + 2 := by rw [hres]; simp
      have hstep : Streams.consumerStep s =
          { s with res := ds'.map some ++ [none], out := s.out ++ [d],
                   conc := s.conc ++ [true] } := by
        simp [Streams.consumerStep, hc, hres]
      rw [hstep]
      refine ⟨?_, Or.inr (Or.inl ⟨hw, hc, hinp, ⟨ds', rfl⟩, ?_, ?_⟩)⟩
      · rw [hres] at hsum
        simpa using hsum
      · show s.conc ++ [true] =
          List.replicate (k - (ds'.map some ++ [none]).length) true
        rw [hconc, ← List.replicate_succ']
        have hm : k - s.res.length + 1 =
            k - (ds'.map some ++ [none]).length := by
          simp only [List.length_append, List.length_map, List.length_cons,
            List.length_nil]
          omega
        rw [hm]
      · show (ds'.map some ++ [none]).length ≤ k
        simp only [List.length_append, List.length_map, List.length_cons,
          List.length_nil]
        omega
  · have hstep : Streams.consumerStep s = s := by
      simp [Streams.consumerStep, hc]
    rw [hstep]
    exact ⟨hsum, Or.inr (Or.inr ⟨hw, hc, hinp, hres, hout⟩)⟩

theorem Streams.bufStep_inv {T : Type} (full : List T) (k : Nat)
    (s : BufState T) (h : Streams.bufInv full k s) (choice : Bool) :
    Streams.bufInv full k (Streams.bufStep s choice) := by
  cases choice with
  | true => exact Streams.workerStep_inv full k s h
  | false => exact Streams.consumerStep_inv full k s h

theorem Streams.bufRun_inv {T : Type} (input : List T) (k : Nat)
    (sched : List Bool) :
    Streams.bufInv input k
      (Streams.bufRun (Streams.bufferedStart input k) sched) := by
  have main : ∀ (s : BufState T), Streams.bufInv input k s →
      Streams.bufInv input k (Streams.bufRun s sched) := by
    induction sched with
    | nil => intro s h; exact h
    | cons c rest ih =>
      intro s h
      exact ih _ (Streams.bufStep_inv input k s h c)
  refine main _ ⟨by simp [Streams.bufferedStart], Or.inl ⟨rfl, rfl, ⟨[], rfl⟩, ?_, ?_⟩⟩ <;>
    simp [Streams.bufferedStart]

theorem Streams.bufInv_cdone {T : Type} (full : List T) (k : Nat)
    (s : BufState T) (h : Streams.bufInv full k s) (hc : s.cdone = true) :
    s.out = full := by
  obtain ⟨-, hphase⟩ := h
  rcases hphase with ⟨-, hc', -⟩ | ⟨-, hc', -⟩ | ⟨-, -, -, -, hout⟩
  · rw [hc] at hc'; cases hc'
  · rw [hc] at hc'; cases hc'
  · exact hout

theorem Streams.bufSched_succ (n : Nat) :
    Streams.bufSched (n + 1) = true :: false :: Streams.bufSched n := by
  show (List.replicate (n + 1 + 1) [true, false]).flatten = _
  rw [List.replicate_succ]
  simp [Streams.bufSched]

theorem Streams.bufRun_det {T : Type} (rem out : List T) (m : Nat) :
    Streams.bufRun ⟨rem, List.replicate (m + 1) true, [], out, false, false⟩
        (Streams.bufSched rem.length) =
      ⟨[], List.replicate m true ++ [false], [], out ++ rem, true, true⟩ := by
  induction rem generalizing out with
  | nil =>
    show Streams.bufRun _ (Streams.bufSched 0) = _
    simp [Streams.bufSched, Streams.bufRun, Streams.bufStep,
      Streams.workerStep, Streams.consumerStep, List.replicate_succ]
  | cons v vs ih =>
    have hsched : Streams.bufSched (v :: vs).length =
        true :: false :: Streams.bufSched vs.length := by
      simp only [List.length_cons]
      exact Streams.bufSched_succ vs.length
    rw [hsched]
    have hw : Streams.bufStep
        ⟨v :: vs, List.replicate (m + 1) true, [], out, false, false⟩ true =
        ⟨vs, List.replicate m true, [some v], out, false, false⟩ := by
      simp [Streams.bufStep, Streams.workerStep, List.replicate_succ]
    have hcs : Streams.bufStep
        ⟨vs, List.replicate m true, [some v], out, false, false⟩ false =
        ⟨vs, List.replicate (m + 1) true, [], out ++ [v], false, false⟩ := by
      simp [Streams.bufStep, Streams.consumerStep, List.replicate_succ']
    show Streams.bufRun _ (true :: false :: Streams.bufSched vs.length) = _
    rw [Streams.bufRun, List.foldl_cons, hw, List.foldl_cons, hcs]
    rw [show List.foldl Streams.bufStep
        ⟨vs, List.replicate (m + 1) true, [], out ++ [v], false, false⟩
        (Streams.bufSched vs.length) =
      Streams.bufRun ⟨vs, List.replicate (m + 1) true, [], out ++ [v],
        false, false⟩ (Streams.bufSched vs.length) from rfl]
    rw [ih (out ++ [v])]
    simp

/-- C2: for every input sequence and every bufferSize k at least 1,
buffered(input, k) yields the same sequence of values, in the same order,
as a fully synchronous element-by-element drain of the input: under every
cooperative interleaving of the worker and the consumer that reaches
completion the yielded sequence equals the synchronous drain, and the
canonical alternating schedule does reach completion with that output
(k = 1 and k at or above the input length included, since k is
arbitrary at or above 1). -/
theorem buffered_order_preservation {T : Type} (input : List T) (k : Nat)
    (hk : 1 ≤ k) :
    (∀ sched : List Bool,
      (Streams.bufRun (Streams.bufferedStart input k) sched).cdone = true →
      (Streams.bufRun (Streams.bufferedStart input k) sched).out =
        Streams.syncDrain input) ∧
    ((Streams.bufRun (Streams.bufferedStart input k)
        (Streams.bufSched input.length)).cdone = true ∧
      (Streams.bufRun (Streams.bufferedStart input k)
        (Streams.bufSched input.length)).out = Streams.syncDrain input) := by
  constructor
  · intro sched hdone
    rw [Streams.syncDrain_eq]
    exact Streams.bufInv_cdone input k _ (Streams.bufRun_inv input k sched) hdone
  · match k, hk with
    | m + 1, _ =>
      have hstart : Streams.bufferedStart input (m + 1) =
          ⟨input, List.replicate (m + 1) true, [], [], false, false⟩ := rfl
      rw [hstart, Streams.bufRun_det input [] m, Streams.syncDrain_eq]
      exact ⟨rfl, by simp⟩

theorem buffered_order_preservation_witness :
    (Streams.bufRun (Streams.bufferedStart [1, 2, 3] 1)
      (Streams.bufSched 3)).cdone = true ∧
    (Streams.bufRun (Streams.bufferedStart [1, 2, 3] 1)
      (Streams.bufSched 3)).out = Streams.syncDrain [1, 2, 3] :=
  (buffered_order_preservation [1, 2, 3] 1 (by decide)).2

/-! ## Streams.bufferedConcurrent (src/unnamed/part_005)

Several workers share the concession channel, the results channel, a
shared finished flag and the one input generator.  A worker that has
received a true concession checks finished and then awaits
generator.next(); concurrent next() calls on an async generator are
served one at a time in call order, modelled by a FIFO queue of worker
indices with pending pulls (genQueue).  The resolution of a pull and the
synchronous push of its result form one step.  The consumer loop is as in
buffered, except that on the end marker it pushes one false concession
per worker.  nonePushes counts how many end markers ever enter the
results channel. -/

inductive WStatus where
  | waiting
  | pulling
  | dead
deriving Repr, DecidableEq

structure StreamState (T : Type) where
  rem : List T
  conc : List Bool
  res : List (Option T)
  finished : Bool
  workers : List WStatus
  genQueue : List Nat
  out : List T
  cdone : Bool
  nonePushes : Nat
deriving Repr, DecidableEq

def Streams.bcStart {T : Type} (input : List T) (bufferSize concurrency : Nat) :
    StreamState T :=
  ⟨input, List.replicate bufferSize true, [], false,
    List.replicate concurrency .waiting, [], [], false, 0⟩

/-- Worker i resumes from concessions.receive(): a false token or a set
finished flag kills it; otherwise it starts a generator pull (enters the
FIFO queue of pending next() calls). -/
def Streams.workerTake {T : Type} (s : StreamState T) (i : Nat) :
    StreamState T :=
  if s.workers.get? i = some .waiting then
    match s.conc, s.finished with
    | [], _ => s
    | false :: rest, _ =>
      { s with conc := rest, workers := s.workers.set i .dead }
    | true :: rest, true =>
      { s with conc := rest, workers := s.workers.set i .dead }
    | true :: rest, false =>
      { s with conc := rest, workers := s.workers.set i .pulling,
               genQueue := s.genQueue ++ [i] }
  else s

/-- The oldest pending generator.next() call resolves: on a remaining item
the worker pushes the tagged value and loops; on exhaustion it sets the
finished flag, pushes the null end marker and stops. -/
def Streams.genStep {T : Type} (s : StreamState T) : StreamState T :=
  match s.genQueue with
  | [] => s
  | i :: rest =>
    match s.rem with
    | v :: vs =>
      { s with rem := vs, res := s.res ++ [some v],
               workers := s.workers.set i .waiting, genQueue := rest }
    | [] =>
      { s with finished := true, res := s.res ++ [none],
               nonePushes := s.nonePushes + 1,
               workers := s.workers.set i .dead, genQueue := rest }

/-- One step of the consuming loop: on the end marker it broadcasts one
false concession per worker and stops; on data it yields the value and
returns one true concession. -/
def Streams.consStep {T : Type} (concurrency : Nat) (s : StreamState T) :
    StreamState T :=
  if s.cdone then s else
  match s.res with
  | [] => s
  | none :: rest =>
    { s with res := rest,
             conc := s.conc ++ List.replicate concurrency false, cdone := true }
  | some v :: rest =>
    { s with res := rest, out := s.out ++ [v], conc := s.conc ++ [true] }

inductive BcChoice where
  | worker (i : Nat)
  | gen
  | consumer
deriving Repr, DecidableEq

def Streams.bcStep {T : Type} (concurrency : Nat) (s : StreamState T) :
    BcChoice → StreamState T
  | .worker i => Streams.workerTake s i
  | .gen => Streams.genStep s
  | .consumer => Streams.consStep concurrency s

def Streams.bcRun {T : Type} (concurrency : Nat) (s : StreamState T)
    (sched : List BcChoice) : StreamState T :=
  sched.foldl (Streams.bcStep concurrency) s

/-- C6 counterexample: two workers both pass the finished-flag check before
either generator pull resolves, so both observe exhaustion and both push
the end marker; the finished flag does not make the end marker unique.
Here: empty input, bufferSize 2, concurrency 2. -/
theorem buffered_concurrent_double_end_marker :
    (Streams.bcRun 2 (Streams.bcStart ([] : List Nat) 2 2)
      [BcChoice.worker 0, BcChoice.worker 1, BcChoice.gen,
        BcChoice.gen]).nonePushes = 2 ∧
    ¬ ((Streams.bcRun 2 (Streams.bcStart ([] : List Nat) 2 2)
      [BcChoice.worker 0, BcChoice.worker 1, BcChoice.gen,
        BcChoice.gen]).nonePushes = 1) := by
  decide

/-- The inductive invariant of a bufferedConcurrent run: true concessions
plus pending pulls plus queued results never exceed the bufferSize; the
worker list keeps its size; yielded values, queued data and unread input
recompose the original input; the finished flag means the input is spent;
end markers only follow data in the results queue and only appear once
the flag is set; and a finished consumer has yielded the whole input. -/
def Streams.bcInv {T : Type} (full : List T) (k c : Nat)
    (s : StreamState T) : Prop :=
  s.conc.count true + s.genQueue.length + s.res.length ≤ k ∧
  s.workers.length = c ∧
  s.out ++ s.res.filterMap id ++ s.rem = full ∧
  (s.finished = true → s.rem = []) ∧
  (∃ (ds : List T) (m : Nat), s.res = ds.map some ++ List.replicate m none) ∧
  ((none : Option T) ∈ s.res → s.finished = true) ∧
  (s.cdone = true → s.out = full)

theorem Streams.filterMap_id_replicate_none {T : Type} (n : Nat) :
    List.filterMap id (List.replicate n (none : Option T)) = [] := by
  induction n with
  | zero => rfl
  | succ n ih => simp [List.replicate_succ, ih]

theorem Streams.workerTake_inv {T : Type} (full : List T) (k c : Nat)
    (s : StreamState T) (h : Streams.bcInv full k c s) (i : Nat) :
    Streams.bcInv full k c (Streams.workerTake s i) := by
  obtain ⟨h1, h2, h3, h4, h5, h6, h7⟩ := h
  by_cases hg : s.workers.get? i = some .waiting
  · match hcq : s.conc with
    | [] =>
      have hstep : Streams.workerTake s i = s := by
        unfold Streams.workerTake
        rw [if_pos hg, hcq]
      rw [hstep]
      exact ⟨h1, h2, h3, h4, h5, h6, h7⟩
    | false :: rest =>
      have hstep : Streams.workerTake s i =
          { s with conc := rest, workers := s.workers.set i .dead } := by
        unfold Streams.workerTake
        rw [if_pos hg, hcq]
      rw [hstep]
      rw [hcq, List.count_cons_of_ne (by decide : (true : Bool) ≠ false)] at h1
      exact ⟨h1, by simp [h2], h3, h4, h5, h6, h7⟩
    | true :: rest =>
      cases hf : s.finished with
      | true =>
        have hstep : Streams.workerTake s i =
            { s with conc := rest, workers := s.workers.set i .dead } := by
          unfold Streams.workerTake
          rw [if_pos hg, hcq, hf]
        rw [hstep]
        rw [hcq, List.count_cons_self] at h1
        refine ⟨?_, by simp [h2], h3, h4, h5, h6, h7⟩
        show List.count true rest + s.genQueue.length + s.res.length ≤ k
        omega
      | false =>
        have hstep : Streams.workerTake s i =
            { s with conc := rest, workers := s.workers.set i .pulling,
                     genQueue := s.genQueue ++ [i] } := by
          unfold Streams.workerTake
          rw [if_pos hg, hcq, hf]
        rw [hstep]
        rw [hcq, List.count_cons_self] at h1
        refine ⟨?_, by simp [h2], h3, h4, h5, h6, h7⟩
        show List.count true rest + (s.genQueue ++ [i]).length + s.res.length ≤ k
        simp only [List.length_append, List.length_cons, List.length_nil]
        omega
  · have hstep : Streams.workerTake s i = s := by
      unfold Streams.workerTake
      rw [if_neg hg]
    rw [hstep]
    exact ⟨h1, h2, h3, h4, h5, h6, h7⟩


theorem Streams.genStep_inv {T : Type} (full : List T) (k c : Nat)
    (s : StreamState T) (h : Streams.bcInv full k c s) :
    Streams.bcInv full k c (Streams.genStep s) := by
  obtain ⟨h1, h2, h3, h4, h5, h6, h7⟩ := h
  unfold Streams.genStep
  match hgq : s.genQueue with
  | [] => exact ⟨h1, h2, h3, h4, h5, h6, h7⟩
  | i :: grest =>
    rw [hgq] at h1
    match hrem : s.rem with
    | v :: vs =>
      have hf : s.finished = false := by
        cases hfc : s.finished with
        | false => rfl
        | true => rw [h4 hfc] at hrem; cases hrem
      obtain ⟨ds, m, hshape⟩ := h5
      have hm : m = 0 := by
        match m, hshape with
        | 0, _ => rfl
        | m' + 1, hshape =>
          have hmem : (none : Option T) ∈ s.res := by
            rw [hshape]
            simp [List.replicate_succ]
          rw [h6 hmem] at hf
          cases hf
      refine ⟨?_, by simp [h2], ?_, ?_, ⟨ds ++ [v], 0, ?_⟩, ?_, ?_⟩
      · simp only [List.length_cons, List.length_append,
          List.length_nil] at h1 ⊢
        omega
      · rw [hrem] at h3
        simpa [List.filterMap_append] using h3
      · intro hft
        rw [hf] at hft
        cases hft
      · rw [hshape, hm]
        simp
      · intro hmem
        rcases List.mem_append.1 hmem with hmem | hmem
        · exact h6 hmem
        · simp at hmem
      · exact h7
    | [] =>
      obtain ⟨ds, m, hshape⟩ := h5
      refine ⟨?_, by simp [h2], ?_, fun _ => rfl, ⟨ds, m + 1, ?_⟩, fun _ => rfl, ?_⟩
      · simp only [List.length_cons, List.length_append,
          List.length_nil] at h1 ⊢
        omega
      · rw [hrem] at h3
        simpa [List.filterMap_append] using h3
      · show s.res ++ [none] =
          List.map some ds ++ List.replicate (m + 1) none
        rw [hshape, List.append_assoc, ← List.replicate_succ']
      · exact h7

theorem Streams.consStep_inv {T : Type} (full : List T) (k c c' : Nat)
    (s : StreamState T) (h : Streams.bcInv full k c s) :
    Streams.bcInv full k c (Streams.consStep c' s) := by
  obtain ⟨h1, h2, h3, h4, h5, h6, h7⟩ := h
  unfold Streams.consStep
  by_cases hcd : s.cdone = true
  · rw [if_pos hcd]
    exact ⟨h1, h2, h3, h4, h5, h6, h7⟩
  · rw [if_neg hcd]
    match hres : s.res with
    | [] => exact ⟨h1, h2, h3, h4, h5, h6, h7⟩
    | none :: rest =>
      obtain ⟨ds, m, hshape⟩ := h5
      have hds : ds = [] := by
        match ds, hshape with
        | [], _ => rfl
        | d :: ds', hshape => rw [hres] at hshape; cases hshape
      rw [hds] at hshape
      simp only [List.map_nil, List.nil_append] at hshape
      have hm : ∃ m', m = m' + 1 := by
        match m, hshape with
        | 0, hshape => rw [hres] at hshape; cases hshape
        | m' + 1, _ => exact ⟨m', rfl⟩
      obtain ⟨m', hm⟩ := hm
      have hrest : rest = List.replicate m' (none : Option T) := by
        rw [hres, hm, List.replicate_succ] at hshape
        simpa using hshape
      have hfin : s.finished = true := h6 (by rw [hres]; simp)
      have hout : s.out = full := by
        rw [h4 hfin, hres] at h3
        simpa [hrest, Streams.filterMap_id_replicate_none] using h3
      rw [hres] at h1
      refine ⟨?_, h2, ?_, h4, ⟨[], m', by simpa using hrest⟩,
        fun hmem => h6 (by rw [hres]; exact List.mem_cons_of_mem _ hmem),
        fun _ => hout⟩
      · simp only [List.count_append, List.length_cons] at h1 ⊢
        have : (List.replicate c' false).count true = 0 := by
          simp [List.count_replicate]
        omega
      · rw [h4 hfin]
        simpa [hrest, Streams.filterMap_id_replicate_none, hout] using rfl
    | some v :: rest =>
      obtain ⟨ds, m, hshape⟩ := h5
      have hds : ∃ ds', ds = v :: ds' := by
        match ds, hshape with
        | [], hshape =>
          rw [hres] at hshape
          match m, hshape with
          | 0, hshape => cases hshape
          | m' + 1, hshape =>
            rw [List.replicate_succ] at hshape
            cases hshape
        | d :: ds', hshape =>
          rw [hres] at hshape
          simp only [List.map_cons, List.cons_append, List.cons.injEq,
            Option.some.injEq] at hshape
          exact ⟨ds', by rw [hshape.1]⟩
      obtain ⟨ds', hds⟩ := hds
      have hrest : rest = ds'.map some ++ List.replicate m (none : Option T) := by
        rw [hres, hds] at hshape
        simpa using hshape
      rw [hres] at h1
      refine ⟨?_, h2, ?_, h4, ⟨ds', m, hrest⟩,
        fun hmem => h6 (by rw [hres]; exact List.mem_cons_of_mem _ hmem), ?_⟩
      · simp only [List.count_append, List.length_cons] at h1 ⊢
        have : List.count true [true] = 1 := by decide
        omega
      · rw [hres] at h3
        simpa using h3
      · intro hct
        rw [hct] at hcd
        exact absurd rfl hcd

theorem Streams.bcStep_inv {T : Type} (full : List T) (k c : Nat)
    (s : StreamState T) (h : Streams.bcInv full k c s) (choice : BcChoice) :
    Streams.bcInv full k c (Streams.bcStep c s choice) := by
  cases choice with
  | worker i => exact Streams.workerTake_inv full k c s h i
  | gen => exact Streams.genStep_inv full k c s h
  | consumer => exact Streams.consStep_inv full k c c s h

theorem Streams.bcRun_inv {T : Type} (input : List T) (k c : Nat)
    (sched : List BcChoice) :
    Streams.bcInv input k c
      (Streams.bcRun c (Streams.bcStart input k c) sched) := by
  have main : ∀ (s : StreamState T), Streams.bcInv input k c s →
      Streams.bcInv input k c (Streams.bcRun c s sched) := by
    induction sched with
    | nil => intro s h; exact h
    | cons choice rest ih =>
      intro s h
      exact ih _ (Streams.bcStep_inv input k c s h choice)
  refine main _ ⟨?_, by simp [Streams.bcStart], by simp [Streams.bcStart],
    by simp [Streams.bcStart], ⟨[], 0, by simp [Streams.bcStart]⟩,
    by simp [Streams.bcStart], by simp [Streams.bcStart]⟩
  simp [Streams.bcStart, List.count_replicate]

def Streams.bcSched (n : Nat) : List BcChoice :=
  (List.replicate (n + 1)
    [BcChoice.worker 0, BcChoice.gen, BcChoice.consumer]).flatten

theorem Streams.bcSched_succ (n : Nat) :
    Streams.bcSched (n + 1) =
      BcChoice.worker 0 :: BcChoice.gen :: BcChoice.consumer ::
        Streams.bcSched n := by
  show (List.replicate (n + 1 + 1) _).flatten = _
  rw [List.replicate_succ]
  simp [Streams.bcSched]

theorem Streams.bcRun_det {T : Type} (rem out : List T) (a c' np : Nat) :
    Streams.bcRun (c' + 1)
      ⟨rem, List.replicate (a + 1) true, [], false,
        .waiting :: List.replicate c' .waiting, [], out, false, np⟩
      (Streams.bcSched rem.length) =
    ⟨[], List.replicate a true ++ List.replicate (c' + 1) false, [], true,
      .dead :: List.replicate c' .waiting, [], out ++ rem, true, np + 1⟩ := by
  induction rem generalizing out with
  | nil =>
    show Streams.bcRun _ _ (Streams.bcSched 0) = _
    simp [Streams.bcSched, Streams.bcRun, Streams.bcStep, Streams.workerTake,
      Streams.genStep, Streams.consStep, List.replicate_succ]
  | cons v vs ih =>
    have hsched : Streams.bcSched (v :: vs).length =
        BcChoice.worker 0 :: BcChoice.gen :: BcChoice.consumer ::
          Streams.bcSched vs.length := by
      simp only [List.length_cons]
      exact Streams.bcSched_succ vs.length
    rw [hsched]
    have hs1 : Streams.bcStep (c' + 1)
        ⟨v :: vs, List.replicate (a + 1) true, [], false,
          .waiting :: List.replicate c' .waiting, [], out, false, np⟩
        (BcChoice.worker 0) =
        ⟨v :: vs, List.replicate a true, [], false,
          .pulling :: List.replicate c' .waiting, [0], out, false, np⟩ := by
      simp [Streams.bcStep, Streams.workerTake, List.replicate_succ]
    have hs2 : Streams.bcStep (c' + 1)
        ⟨v :: vs, List.replicate a true, [], false,
          .pulling :: List.replicate c' .waiting, [0], out, false, np⟩
        BcChoice.gen =
        ⟨vs, List.replicate a true, [some v], false,
          .waiting :: List.replicate c' .waiting, [], out, false, np⟩ := by
      simp [Streams.bcStep, Streams.genStep]
    have hs3 : Streams.bcStep (c' + 1)
        ⟨vs, List.replicate a true, [some v], false,
          .waiting :: List.replicate c' .waiting, [], out, false, np⟩
        BcChoice.consumer =
        ⟨vs, List.replicate (a + 1) true, [], false,
          .waiting :: List.replicate c' .waiting, [], out ++ [v], false,
          np⟩ := by
      simp [Streams.bcStep, Streams.consStep, List.replicate_succ']
    show List.foldl (Streams.bcStep (c' + 1)) _ _ = _
    rw [List.foldl_cons, hs1, List.foldl_cons, hs2, List.foldl_cons, hs3]
    rw [show List.foldl (Streams.bcStep (c' + 1))
        ⟨vs, List.replicate (a + 1) true, [], false,
          .waiting :: List.replicate c' .waiting, [], out ++ [v], false, np⟩
        (Streams.bcSched vs.length) =
      Streams.bcRun (c' + 1)
        ⟨vs, List.replicate (a + 1) true, [], false,
          .waiting :: List.replicate c' .waiting, [], out ++ [v], false, np⟩
        (Streams.bcSched vs.length) from rfl]
    rw [ih (out ++ [v])]
    simp

/-- C6 amended: for every input, bufferSize k at least 1 and concurrency c
at least 1, under every cooperative interleaving bufferedConcurrent never
has more than k results buffered and never more than c workers
concurrently pulling, and every completed run yields exactly the input
values (hence the same multiset as the input, order aside); the canonical
single-worker schedule completes with exactly one end marker pushed.
However the shared finished flag does not make the end marker unique:
a second worker that passed the flag check before the first worker's pull
resolved also pushes the marker, see
buffered_concurrent_double_end_marker.  The consumer stops at the first
marker, so duplicates are harmless for the yielded output. -/
theorem buffered_concurrent_amended {T : Type} (input : List T) (k c : Nat)
    (hk : 1 ≤ k) (hc : 1 ≤ c) :
    (∀ sched : List BcChoice,
      (Streams.bcRun c (Streams.bcStart input k c) sched).res.length ≤ k ∧
      ((Streams.bcRun c (Streams.bcStart input k c) sched).workers.countP
        (fun w => decide (w = WStatus.pulling))) ≤ c ∧
      ((Streams.bcRun c (Streams.bcStart input k c) sched).cdone = true →
        (Streams.bcRun c (Streams.bcStart input k c) sched).out = input)) ∧
    ((Streams.bcRun c (Streams.bcStart input k c)
        (Streams.bcSched input.length)).cdone = true ∧
      (Streams.bcRun c (Streams.bcStart input k c)
        (Streams.bcSched input.length)).out = input ∧
      (Streams.bcRun c (Streams.bcStart input k c)
        (Streams.bcSched input.length)).nonePushes = 1) := by
  constructor
  · intro sched
    obtain ⟨h1, h2, -, -, -, -, h7⟩ := Streams.bcRun_inv input k c sched
    refine ⟨by omega, ?_, h7⟩
    calc (Streams.bcRun c (Streams.bcStart input k c) sched).workers.countP
          (fun w => decide (w = WStatus.pulling)) ≤
        (Streams.bcRun c (Streams.bcStart input k c) sched).workers.length :=
          List.countP_le_length _
      _ = c := h2
  · match k, hk, c, hc with
    | a + 1, _, c' + 1, _ =>
      have hstart : Streams.bcStart input (a + 1) (c' + 1) =
          ⟨input, List.replicate (a + 1) true, [], false,
            .waiting :: List.replicate c' .waiting, [], [], false, 0⟩ := by
        simp [Streams.bcStart, List.replicate_succ]
      rw [hstart, Streams.bcRun_det input [] a c' 0]
      exact ⟨rfl, by simp, rfl⟩

theorem buffered_concurrent_amended_witness :
    (Streams.bcRun 2 (Streams.bcStart [1, 2, 3] 2 2)
      (Streams.bcSched 3)).cdone = true ∧
    (Streams.bcRun 2 (Streams.bcStart [1, 2, 3] 2 2)
      (Streams.bcSched 3)).out = [1, 2, 3] ∧
    (Streams.bcRun 2 (Streams.bcStart [1, 2, 3] 2 2)
      (Streams.bcSched 3)).nonePushes = 1 :=
  (buffered_concurrent_amended [1, 2, 3] 2 2 (by decide) (by decide)).2

/-! ## Worker.consume (src/unnamed/part_008)

The pool launches concurrency workers.  Each worker runs:
for await (item of source_) { if (stop) break; result = await
workerFn(item); output.push(result) or await output.send(result) }.

C7 concerns an array source with an array sink.  The source line
const source_ = Array.isArray(source) ? source.values() : source
executes inside each worker's closure, so every worker obtains its own
fresh iterator over the array: the workers do not share a cursor, and the
model gives each worker its own position. -/

structure ConsumeArrState (O : Type) where
  positions : List Nat
  out : List O
deriving Repr, DecidableEq

def Worker.consumeArrStart (concurrency : Nat) : ConsumeArrState O :=
  ⟨List.replicate concurrency 0, []⟩

/-- One resumption of worker i on an array source with an array sink: the
worker pulls the next element of its own iterator, transforms it and
appends the result; a worker whose own iterator is exhausted exits. -/
def Worker.consumeArrStep {I O : Type} (source : List I) (f : I → O)
    (s : ConsumeArrState O) (i : Nat) : ConsumeArrState O :=
  match s.positions.get? i with
  | some pos =>
    match source.get? pos with
    | some v => ⟨s.positions.set i (pos + 1), s.out ++ [f v]⟩
    | none => s
  | none => s

def Worker.consumeArrRun {I O : Type} (source : List I) (f : I → O)
    (concurrency : Nat) (sched : List Nat) : ConsumeArrState O :=
  sched.foldl (Worker.consumeArrStep source f) (Worker.consumeArrStart concurrency)

/-- C7 (code_bug evidence): with the one-element array source [10] and two
workers, a run that lets each worker resume once processes the single
element twice — once per worker — because each worker iterates its own
copy of the array instead of sharing one cursor.  The claim (and the
source comment saying the conversion avoids repeated processing) requires
the element to be claimed exactly once. -/
theorem worker_consume_duplicates :
    (Worker.consumeArrRun [10] (fun x => x) 2 [0, 1]).out = [10, 10] ∧
    ¬ ((Worker.consumeArrRun [10] (fun x => x) 2 [0, 1]).out.length = 1) := by
  decide

/-! ## Worker.consume with a channel sink (C8)

For C8 the source is a shared generator (all workers pull from the same
remaining list), the sink is a channel whose send fails exactly while the
sink is closed (a FiniteChannel that was closed), and the schedule may
close the sink at any point.  Worker phases per item: atHead (about to
pull), pulled v (resumed from the iterator, about to run the stop check
and the transform), sending r (transform done, about to send), and the
two exits: exited (clean) and failed (send threw; the error is recorded,
tagged with the worker index that raised it). -/

inductive W8 (I O : Type) where
  | atHead
  | pulled (v : I)
  | sending (r : O)
  | exited
  | failed (e : Nat)
deriving Repr, DecidableEq

structure ConsumeChanState (I O : Type) where
  rem : List I
  workers : List (W8 I O)
  stop : Bool
  sinkClosed : Bool
  sent : List O
  errs : List Nat
deriving Repr, DecidableEq

inductive C8Op where
  | step (i : Nat)
  | closeSink
deriving Repr, DecidableEq

def Worker.consumeChanStart {I O : Type} (source : List I)
    (concurrency : Nat) : ConsumeChanState I O :=
  ⟨source, List.replicate concurrency .atHead, false, false, [], []⟩

/-- One scheduler event: either the sink closes, or worker i runs to its
next suspension point.  At atHead the worker pulls from the shared
iterator (or exits cleanly on exhaustion); at pulled it checks the shared
stop flag — set means break, dropping the pulled item — and otherwise
runs the transform; at sending it performs the channel send, which throws
when the sink is closed, whereupon the worker sets stop and re-raises. -/
def Worker.consumeChanStep {I O : Type} (f : I → O)
    (s : ConsumeChanState I O) : C8Op → ConsumeChanState I O
  | .closeSink => { s with sinkClosed := true }
  | .step i =>
    match s.workers.get? i with
    | some .atHead =>
      match s.rem with
      | [] => { s with workers := s.workers.set i .exited }
      | v :: vs => { s with rem := vs, workers := s.workers.set i (.pulled v) }
    | some (.pulled v) =>
      match s.stop with
      | true => { s with workers := s.workers.set i .exited }
      | false => { s with workers := s.workers.set i (.sending (f v)) }
    | some (.sending r) =>
      match s.sinkClosed with
      | true =>
        { s with stop := true, workers := s.workers.set i (.failed i),
                 errs := s.errs ++ [i] }
      | false =>
        { s with sent := s.sent ++ [r], workers := s.workers.set i .atHead }
    | _ => s

def Worker.consumeChanRun {I O : Type} (f : I → O) (source : List I)
    (concurrency : Nat) (sched : List C8Op) : ConsumeChanState I O :=
  sched.foldl (Worker.consumeChanStep f) (Worker.consumeChanStart source concurrency)

/-- The result consume settles with: Promise.all rejects with the first
rejection in settlement order, discarding later ones, and resolves when
no worker failed. -/
def Worker.consumeResult {I O : Type} (s : ConsumeChanState I O) :
    Except Nat (List O) :=
  match s.errs with
  | [] => .ok s.sent
  | e :: _ => .error e

def Worker.consumeChanRunFrom {I O : Type} (f : I → O)
    (s : ConsumeChanState I O) (sched : List C8Op) : ConsumeChanState I O :=
  sched.foldl (Worker.consumeChanStep f) s

def Worker.isSending {I O : Type} : W8 I O → Bool
  | .sending _ => true
  | _ => false

/-- Number of workers mid-send (their current item is in flight). -/
def Worker.sendingCount {I O : Type} (ws : List (W8 I O)) : Nat :=
  ws.countP Worker.isSending

theorem Worker.countP_set {α : Type} (p : α → Bool) (l : List α) (i : Nat)
    (w w' : α) (h : l.get? i = some w) :
    (l.set i w').countP p + (if p w then 1 else 0) =
      l.countP p + (if p w' then 1 else 0) := by
  induction l generalizing i with
  | nil => cases h
  | cons x xs ih =>
    match i with
    | 0 =>
      have hx : x = w := by simpa using h
      subst hx
      simp only [List.set, List.countP_cons]
      omega
    | n + 1 =>
      have h' : xs.get? n = some w := by simpa using h
      have := ih n h'
      simp only [List.set, List.countP_cons]
      omega

theorem Worker.consumeChanStep_props {I O : Type} (f : I → O)
    (s : ConsumeChanState I O) (op : C8Op) :
    (s.stop = true → (Worker.consumeChanStep f s op).stop = true) ∧
    ((Worker.consumeChanStep f s op).errs = s.errs ∨
      (∃ j, (Worker.consumeChanStep f s op).errs = s.errs ++ [j] ∧
        (Worker.consumeChanStep f s op).stop = true)) ∧
    ((Worker.consumeChanStep f s op).stop = true →
      s.stop = true ∨ (Worker.consumeChanStep f s op).errs ≠ s.errs) ∧
    (s.stop = true →
      (Worker.consumeChanStep f s op).sent.length +
          Worker.sendingCount (Worker.consumeChanStep f s op).workers ≤
        s.sent.length + Worker.sendingCount s.workers) := by
  cases op with
  | closeSink =>
    exact ⟨fun h => h, Or.inl rfl, fun h => Or.inl h, fun _ => le_refl _⟩
  | step i =>
    match hw : s.workers.get? i with
    | none =>
      have hstep : Worker.consumeChanStep f s (.step i) = s := by
        simp only [Worker.consumeChanStep]
        rw [hw]
      rw [hstep]
      exact ⟨fun h => h, Or.inl rfl, fun h => Or.inl h, fun _ => le_refl _⟩
    | some .exited =>
      have hstep : Worker.consumeChanStep f s (.step i) = s := by
        simp only [Worker.consumeChanStep]
        rw [hw]
      rw [hstep]
      exact ⟨fun h => h, Or.inl rfl, fun h => Or.inl h, fun _ => le_refl _⟩
    | some (.failed e) =>
      have hstep : Worker.consumeChanStep f s (.step i) = s := by
        simp only [Worker.consumeChanStep]
        rw [hw]
      rw [hstep]
      exact ⟨fun h => h, Or.inl rfl, fun h => Or.inl h, fun _ => le_refl _⟩
    | some .atHead =>
      have hcp := fun w' => Worker.countP_set Worker.isSending s.workers i
        .atHead w' hw
      match hrem : s.rem with
      | [] =>
        have hstep : Worker.consumeChanStep f s (.step i) =
            { s with workers := s.workers.set i .exited } := by
          simp only [Worker.consumeChanStep]
          rw [hw, hrem]
        rw [hstep]
        refine ⟨fun h => h, Or.inl rfl, fun h => Or.inl h, fun _ => ?_⟩
        have := hcp .exited
        simp [Worker.isSending] at this
        simp only [Worker.sendingCount]
        omega
      | v :: vs =>
        have hstep : Worker.consumeChanStep f s (.step i) =
            { s with rem := vs, workers := s.workers.set i (.pulled v) } := by
          simp only [Worker.consumeChanStep]
          rw [hw, hrem]
        rw [hstep]
        refine ⟨fun h => h, Or.inl rfl, fun h => Or.inl h, fun _ => ?_⟩
        have := hcp (.pulled v)
        simp [Worker.isSending] at this
        simp only [Worker.sendingCount]
        omega
    | some (.pulled v) =>
      have hcp := fun w' => Worker.countP_set Worker.isSending s.workers i
        (.pulled v) w' hw
      cases hs : s.stop with
      | true =>
        have hstep : Worker.consumeChanStep f s (.step i) =
            { s with workers := s.workers.set i .exited } := by
          simp only [Worker.consumeChanStep]
          rw [hw, hs]
        rw [hstep]
        refine ⟨fun _ => hs, Or.inl rfl, fun _ => Or.inl rfl, fun _ => ?_⟩
        have := hcp .exited
        simp [Worker.isSending] at this
        simp only [Worker.sendingCount]
        omega
      | false =>
        have hstep : Worker.consumeChanStep f s (.step i) =
            { s with workers := s.workers.set i (.sending (f v)) } := by
          simp only [Worker.consumeChanStep]
          rw [hw, hs]
        rw [hstep]
        refine ⟨?_, Or.inl rfl, ?_, ?_⟩
        · intro h
          exact nomatch h
        · intro h
          refine Or.inl ?_
          have hstop' : s.stop = true := h
          rw [hs] at hstop'
          exact hstop'
        · intro h
          exact nomatch h
    | some (.sending r) =>
      have hcp := fun w' => Worker.countP_set Worker.isSending s.workers i
        (.sending r) w' hw
      cases hsc : s.sinkClosed with
      | true =>
        have hstep : Worker.consumeChanStep f s (.step i) =
            { s with stop := true, workers := s.workers.set i (.failed i),
                     errs := s.errs ++ [i] } := by
          simp only [Worker.consumeChanStep]
          rw [hw, hsc]
        rw [hstep]
        refine ⟨fun _ => rfl, Or.inr ⟨i, rfl, rfl⟩, fun _ => Or.inr ?_, fun _ => ?_⟩
        · intro hcontra
          have := congrArg List.length hcontra
          simp at this
        · have := hcp (.failed i)
          simp [Worker.isSending] at this
          simp only [Worker.sendingCount]
          omega
      | false =>
        have hstep : Worker.consumeChanStep f s (.step i) =
            { s with sent := s.sent ++ [r],
                     workers := s.workers.set i .atHead } := by
          simp only [Worker.consumeChanStep]
          rw [hw, hsc]
        rw [hstep]
        refine ⟨fun h => h, Or.inl rfl, fun h => Or.inl h, fun _ => ?_⟩
        have := hcp .atHead
        simp [Worker.isSending] at this
        simp only [Worker.sendingCount, List.length_append, List.length_cons,
          List.length_nil]
        omega

theorem Worker.get?_set_self {α : Type} (l : List α) (i : Nat) (w w' : α)
    (h : l.get? i = some w) : (l.set i w').get? i = some w' := by
  induction l generalizing i with
  | nil => cases h
  | cons x xs ih =>
    match i with
    | 0 => rfl
    | n + 1 => exact ih n (by simpa using h)

theorem Worker.runFrom_stop_iff {I O : Type} (f : I → O) (sched : List C8Op) :
    ∀ s : ConsumeChanState I O, (s.stop = true ↔ s.errs ≠ []) →
      ((Worker.consumeChanRunFrom f s sched).stop = true ↔
        (Worker.consumeChanRunFrom f s sched).errs ≠ []) := by
  induction sched with
  | nil => intro s h; exact h
  | cons op rest ih =>
    intro s hiff
    obtain ⟨p1, p2, p3, -⟩ := Worker.consumeChanStep_props f s op
    refine ih _ ?_
    constructor
    · intro ht
      rcases p3 ht with hs | hne
      · rcases p2 with heq | ⟨j, hj, -⟩
        · rw [heq]; exact hiff.1 hs
        · rw [hj]; simp
      · rcases p2 with heq | ⟨j, hj, -⟩
        · exact absurd heq hne
        · rw [hj]; simp
    · intro hte
      rcases p2 with heq | ⟨j, hj, hstop⟩
      · rw [heq] at hte
        exact p1 (hiff.2 hte)
      · exact hstop

theorem Worker.runFrom_stop_bound {I O : Type} (f : I → O) (sched : List C8Op) :
    ∀ s : ConsumeChanState I O, s.stop = true →
      (Worker.consumeChanRunFrom f s sched).stop = true ∧
      (Worker.consumeChanRunFrom f s sched).sent.length +
          Worker.sendingCount (Worker.consumeChanRunFrom f s sched).workers ≤
        s.sent.length + Worker.sendingCount s.workers := by
  induction sched with
  | nil => intro s h; exact ⟨h, le_refl _⟩
  | cons op rest ih =>
    intro s hs
    obtain ⟨p1, -, -, p4⟩ := Worker.consumeChanStep_props f s op
    obtain ⟨hstop, hle⟩ := ih _ (p1 hs)
    exact ⟨hstop, le_trans hle (p4 hs)⟩

theorem Worker.runFrom_errs_extend {I O : Type} (f : I → O)
    (sched : List C8Op) :
    ∀ s : ConsumeChanState I O, ∃ tail,
      (Worker.consumeChanRunFrom f s sched).errs = s.errs ++ tail := by
  induction sched with
  | nil => intro s; exact ⟨[], by simp [Worker.consumeChanRunFrom]⟩
  | cons op rest ih =>
    intro s
    obtain ⟨p1, p2, -, -⟩ := Worker.consumeChanStep_props f s op
    obtain ⟨tail, htail⟩ := ih (Worker.consumeChanStep f s op)
    rcases p2 with heq | ⟨j, hj, -⟩
    · refine ⟨tail, ?_⟩
      show (Worker.consumeChanRunFrom f
        (Worker.consumeChanStep f s op) rest).errs = s.errs ++ tail
      rw [htail, heq]
    · refine ⟨j :: tail, ?_⟩
      show (Worker.consumeChanRunFrom f
        (Worker.consumeChanStep f s op) rest).errs = s.errs ++ j :: tail
      rw [htail, hj]
      simp

/-- C8: with a channel sink, a worker whose send fails sets the shared stop
flag, re-raises (its error is recorded) and ends in the failed state; a
sibling that reaches its stop-flag check while the flag is set exits
without completing the pulled item; across every schedule the stop flag is
set exactly when some worker has failed, and once it is set the pool
completes at most the items already in flight (one per mid-send worker);
and consume settles with the first worker error observed, discarding
errors recorded after it. -/
theorem worker_pool_fail_fast {I O : Type} (f : I → O) (source : List I)
    (concurrency : Nat) :
    (∀ (s : ConsumeChanState I O) (i : Nat) (r : O),
      s.workers.get? i = some (.sending r) → s.sinkClosed = true →
        (Worker.consumeChanStep f s (.step i)).stop = true ∧
        (Worker.consumeChanStep f s (.step i)).errs = s.errs ++ [i] ∧
        (Worker.consumeChanStep f s (.step i)).workers.get? i =
          some (.failed i)) ∧
    (∀ (s : ConsumeChanState I O) (i : Nat) (v : I),
      s.workers.get? i = some (.pulled v) → s.stop = true →
        (Worker.consumeChanStep f s (.step i)).workers.get? i =
          some .exited ∧
        (Worker.consumeChanStep f s (.step i)).sent = s.sent) ∧
    (∀ sched : List C8Op,
      ((Worker.consumeChanRun f source concurrency sched).stop = true ↔
        (Worker.consumeChanRun f source concurrency sched).errs ≠ [])) ∧
    (∀ sched more : List C8Op,
      (Worker.consumeChanRun f source concurrency sched).stop = true →
      (Worker.consumeChanRunFrom f
          (Worker.consumeChanRun f source concurrency sched)
          more).sent.length ≤
        (Worker.consumeChanRun f source concurrency sched).sent.length +
          Worker.sendingCount
            (Worker.consumeChanRun f source concurrency sched).workers) ∧
    (∀ (sched more : List C8Op) (e : Nat) (rest : List Nat),
      (Worker.consumeChanRun f source concurrency sched).errs = e :: rest →
      Worker.consumeResult (Worker.consumeChanRunFrom f
          (Worker.consumeChanRun f source concurrency sched) more) =
        .error e) := by
  refine ⟨?_, ?_, ?_, ?_, ?_⟩
  · intro s i r hw hsc
    have hstep : Worker.consumeChanStep f s (.step i) =
        { s with stop := true, workers := s.workers.set i (.failed i),
                 errs := s.errs ++ [i] } := by
      simp only [Worker.consumeChanStep]
      rw [hw, hsc]
    rw [hstep]
    exact ⟨rfl, rfl, Worker.get?_set_self s.workers i _ _ hw⟩
  · intro s i v hw hstop
    have hstep : Worker.consumeChanStep f s (.step i) =
        { s with workers := s.workers.set i .exited } := by
      simp only [Worker.consumeChanStep]
      rw [hw, hstop]
    rw [hstep]
    exact ⟨Worker.get?_set_self s.workers i _ _ hw, rfl⟩
  · intro sched
    exact Worker.runFrom_stop_iff f sched
      (Worker.consumeChanStart source concurrency) (by simp [Worker.consumeChanStart])
  · intro sched more hstop
    exact le_trans (Nat.le_add_right _ _)
      (Worker.runFrom_stop_bound f more _ hstop).2
  · intro sched more e rest herrs
    obtain ⟨tail, htail⟩ := Worker.runFrom_errs_extend f more
      (Worker.consumeChanRun f source concurrency sched)
    unfold Worker.consumeResult
    rw [htail, herrs]
    rfl

theorem worker_pool_fail_fast_witness :
    Worker.consumeResult
      (Worker.consumeChanRunFrom (fun x : Nat => x)
        (Worker.consumeChanRun (fun x : Nat => x) [1, 2, 3] 2
          [C8Op.step 0, C8Op.step 1, C8Op.step 0, C8Op.step 1,
           C8Op.closeSink, C8Op.step 0, C8Op.step 1]) []) =
      Except.error 0 :=
  (worker_pool_fail_fast (fun x : Nat => x) [1, 2, 3] 2).2.2.2.2
    [C8Op.step 0, C8Op.step 1, C8Op.step 0, C8Op.step 1,
     C8Op.closeSink, C8Op.step 0, C8Op.step 1] [] 0 [1] (by decide)
